import Mathlib

/-!
Verification of the agent orchestration engine of the `openrouter-agent`
repository (TypeScript).  Each section shallowly embeds one piece of the
source code (`src/index.ts`-style agent file, here `src/unnamed/part_004`,
and `src/src/tools.ts`) as executable Lean definitions and proves the
spec's claims about it.

JavaScript strings are modelled as Lean `String`s (the inputs involved are
ASCII, where JS UTF-16 code-unit operations and Lean character operations
agree); JS number arithmetic on the sizes involved is exact, and is
modelled by exact natural-number arithmetic with explicit ceilings.
-/

namespace OpenrouterAgent

/-! ## JavaScript string primitives used by the agent

Small executable models of the JS string methods the agent calls:
`.trim()`, `.toLowerCase()`, `.slice(-n)`, `.includes(sub)`.  All inputs
the claims exercise are ASCII, where these coincide with the JS methods. -/

/-- The whitespace characters JS `String.prototype.trim` strips (the ASCII
ones; the agent only ever trims ASCII answers). -/
def jsIsSpace (c : Char) : Bool :=
  c = ' ' || c = '\t' || c = '\n' || c = '\r'

/-- JS `s.trim()`. -/
def jsTrim (s : String) : String :=
  String.mk (((s.data.dropWhile jsIsSpace).reverse.dropWhile jsIsSpace).reverse)

/-- JS `s.toLowerCase()` (ASCII range). -/
def jsToLower (s : String) : String :=
  String.mk (s.data.map Char.toLower)

/-- JS `s.slice(-n)`: the last `n` code units (the whole string when it is
shorter). -/
def jsSliceLast (n : Nat) (s : String) : String :=
  String.mk (s.data.drop (s.data.length - n))

/-- JS `hay.includes(needle)` (also models `/phrase/i.test(hay)` after
lowercasing both sides): some suffix of `hay` starts with `needle`. -/
def jsIncludes (hay needle : String) : Bool :=
  (List.range (hay.data.length + 1)).any (fun i => needle.data.isPrefixOf (hay.data.drop i))

/-! ## Streaming tool-call assembler (`Agent.run`, part_004 lines 1247-1260)

The stream loop keeps `toolCalls : any[]` and, for every tool-call delta of
every fragment, runs

```js
if (tcDelta.index !== undefined) {
    if (toolCalls.length <= tcDelta.index) {
        toolCalls.push({ id: '', type: 'function', function: { name: '', arguments: '' } });
    }
    const current = toolCalls[tcDelta.index];
    if (tcDelta.id) current.id += tcDelta.id;
    if (tcDelta.function?.name) current.function.name += tcDelta.function.name;
    if (tcDelta.function?.arguments) current.function.arguments += tcDelta.function.arguments;
}
```

`push` adds exactly one empty accumulator even when the index skips ahead;
reading `toolCalls[i]` past the end yields `undefined`, and the first
truthy field append then throws a `TypeError` which the surrounding
`try`/`catch` turns into the run's error path.  `applyDelta` returns
`none` exactly on that throw. -/

structure ToolCallDelta where
  index : Option Nat
  id : Option String
  name : Option String
  arguments : Option String
  deriving DecidableEq, Repr

structure ToolCall where
  id : String
  name : String
  arguments : String
  deriving DecidableEq, Repr

/-- The accumulator `push`ed on first sight of a fresh index. -/
def emptyToolCall : ToolCall := ⟨"", "", ""⟩

/-- JS truthiness of an optional string field (`undefined` and `''` are
falsy). -/
def truthyStr : Option String → Bool
  | some s => !(s == "")
  | none => false

/-- One guarded field append: `if (tcDelta.id) current.id += tcDelta.id`. -/
def appendPiece (cur : String) (piece : Option String) : String :=
  match piece with
  | some s => if s == "" then cur else cur ++ s
  | none => cur

/-- Process one tool-call delta against the accumulated list; `none` models
the `TypeError` thrown when a truthy field is appended to an absent
(`undefined`) entry. -/
def applyDelta (toolCalls : List ToolCall) (d : ToolCallDelta) : Option (List ToolCall) :=
  match d.index with
  | none => some toolCalls
  | some i =>
    let tcs := if toolCalls.length ≤ i then toolCalls ++ [emptyToolCall] else toolCalls
    match tcs[i]? with
    | some current =>
        some (tcs.set i
          { id := appendPiece current.id d.id
            name := appendPiece current.name d.name
            arguments := appendPiece current.arguments d.arguments })
    | none =>
        if truthyStr d.id || truthyStr d.name || truthyStr d.arguments then none else some tcs

/-- The whole stream loop over the in-order delta sequence. -/
def applyDeltas (toolCalls : List ToolCall) : List ToolCallDelta → Option (List ToolCall)
  | [] => some toolCalls
  | d :: ds =>
    match applyDelta toolCalls d with
    | some tcs => applyDeltas tcs ds
    | none => none

/-- Stream-end result of the assembler, starting from the empty list. -/
def assembleToolCalls (ds : List ToolCallDelta) : Option (List ToolCall) :=
  applyDeltas [] ds

/-- The piece one delta contributes to field `f` of the call at index `j`
(empty when the delta addresses another index or carries no piece). -/
def pieceFor (j : Nat) (f : ToolCallDelta → Option String) (d : ToolCallDelta) : String :=
  if d.index = some j then (f d).getD "" else ""

/-- In-order concatenation of one field's pieces delivered for index `j`. -/
def catFor (j : Nat) (f : ToolCallDelta → Option String) : List ToolCallDelta → String
  | [] => ""
  | d :: ds => pieceFor j f d ++ catFor j f ds

/-- The tool call index `j` should assemble to: each field is the in-order
concatenation of its delivered pieces. -/
def gatheredCall (ds : List ToolCallDelta) (j : Nat) : ToolCall :=
  { id := catFor j (fun d => d.id) ds
    name := catFor j (fun d => d.name) ds
    arguments := catFor j (fun d => d.arguments) ds }

/-- The "one fragment per call" delta stream delivering every whole field at
once, indices `n, n+1, …`. -/
def singleFragmentFrom (n : Nat) : List ToolCall → List ToolCallDelta
  | [] => []
  | c :: rest =>
      ⟨some n, some c.id, some c.name, some c.arguments⟩ :: singleFragmentFrom (n + 1) rest

def singleFragmentDeltas (tcs : List ToolCall) : List ToolCallDelta :=
  singleFragmentFrom 0 tcs

/-- Contiguous arrival: every tool-call delta's index is at most the length
the accumulated list has when the delta arrives (`n` is that length). -/
def contiguousFrom (n : Nat) : List ToolCallDelta → Bool
  | [] => true
  | d :: ds =>
    match d.index with
    | none => contiguousFrom n ds
    | some i => decide (i ≤ n) && contiguousFrom (max n (i + 1)) ds

/-! ### Assembler lemmas -/

lemma string_append_empty (s : String) : s ++ "" = s := by
  cases s with
  | mk data => apply String.ext; simp

lemma string_empty_append (s : String) : "" ++ s = s := by
  cases s with
  | mk data => apply String.ext; simp

lemma appendPiece_eq (cur : String) (p : Option String) :
    appendPiece cur p = cur ++ p.getD "" := by
  cases p with
  | none => simp [appendPiece, string_append_empty]
  | some s =>
    by_cases h : s = "" <;> simp [appendPiece, h, string_append_empty]

lemma getD_empty_of_falsy {p : Option String} (h : truthyStr p = false) :
    p.getD "" = "" := by
  cases p with
  | none => rfl
  | some s => simpa [truthyStr] using h

lemma toolCall_eta_append (c : ToolCall) :
    (⟨c.id ++ "", c.name ++ "", c.arguments ++ ""⟩ : ToolCall) = c := by
  cases c; simp [string_append_empty]

lemma set_concat {α : Type} (l : List α) (a b : α) :
    (l ++ [a]).set l.length b = l ++ [b] := by
  induction l with
  | nil => rfl
  | cons x xs ih => simp [List.set, ih]

section GetDToolbox

variable {α : Type} (e : α)

lemma getD_append_left (l : List α) (a : α) {j : Nat} (h : j < l.length) :
    (l ++ [a]).getD j e = l.getD j e := by
  simp [List.getD, List.getElem?_append_left h]

lemma getD_append_last (l : List α) (a : α) :
    (l ++ [a]).getD l.length e = a := by
  simp [List.getD, List.getElem?_concat_length]

lemma getD_of_len_le (l : List α) {j : Nat} (h : l.length ≤ j) :
    l.getD j e = e := by
  simp [List.getD, List.getElem?_eq_none_iff.mpr h]

lemma getD_set_self (l : List α) {i : Nat} (h : i < l.length) (x : α) :
    (l.set i x).getD i e = x := by
  simp [List.getD, List.getElem?_set_eq h]

lemma getD_set_other (l : List α) {i j : Nat} (h : i ≠ j) (x : α) :
    (l.set i x).getD j e = l.getD j e := by
  simp [List.getD, List.getElem?_set_ne h]

lemma getD_append_beyond (l : List α) (a : α) {j : Nat} (h : l.length < j) :
    (l ++ [a]).getD j e = e :=
  getD_of_len_le e _ (by simpa using h)

lemma getD_get (l : List α) {j : Nat} (h : j < l.length) :
    l.getD j e = l.get ⟨j, h⟩ := by
  simp [List.getD, List.getElem?_eq_getElem h, List.get_eq_getElem]

end GetDToolbox

lemma pieceFor_of_ne {d : ToolCallDelta} {i j : Nat} (hidx : d.index = some i)
    (hij : i ≠ j) (f : ToolCallDelta → Option String) : pieceFor j f d = "" := by
  simp [pieceFor, hidx, hij]

lemma pieceFor_of_eq {d : ToolCallDelta} {j : Nat} (hidx : d.index = some j)
    (f : ToolCallDelta → Option String) : pieceFor j f d = (f d).getD "" := by
  simp [pieceFor, hidx]

/-- One delta extends exactly the addressed entry by its pieces, viewed
through `getD` (absent positions read as the empty accumulator). -/
lemma applyDelta_getD (acc acc' : List ToolCall) (d : ToolCallDelta)
    (h : applyDelta acc d = some acc') :
    acc.length ≤ acc'.length ∧ ∀ j : Nat,
      acc'.getD j emptyToolCall =
        ⟨(acc.getD j emptyToolCall).id ++ pieceFor j (fun x => x.id) d,
         (acc.getD j emptyToolCall).name ++ pieceFor j (fun x => x.name) d,
         (acc.getD j emptyToolCall).arguments ++ pieceFor j (fun x => x.arguments) d⟩ := by
  match hidx : d.index with
  | none =>
    simp [applyDelta, hidx] at h
    subst h
    refine ⟨le_refl _, fun j => ?_⟩
    simp [pieceFor, hidx, toolCall_eta_append]
  | some i =>
    simp only [applyDelta, hidx] at h
    by_cases hlen : acc.length ≤ i
    · -- an accumulator is pushed
      simp only [if_pos hlen] at h
      by_cases hi : i < acc.length + 1
      · -- the pushed entry is the addressed one: i = acc.length
        have hie : i = acc.length := by omega
        subst hie
        rw [show (acc ++ [emptyToolCall])[acc.length]? = some emptyToolCall from
          List.getElem?_concat_length acc emptyToolCall] at h
        simp only [Option.some.injEq] at h
        subst h
        refine ⟨by simp, fun j => ?_⟩
        rw [set_concat]
        rcases Nat.lt_trichotomy j acc.length with hjlt | hje | hjgt
        · rw [getD_append_left _ _ _ hjlt]
          rw [pieceFor_of_ne hidx (Nat.ne_of_gt hjlt), pieceFor_of_ne hidx (Nat.ne_of_gt hjlt),
            pieceFor_of_ne hidx (Nat.ne_of_gt hjlt), toolCall_eta_append]
        · subst hje
          rw [getD_append_last, getD_of_len_le _ _ (le_refl _)]
          rw [pieceFor_of_eq hidx, pieceFor_of_eq hidx, pieceFor_of_eq hidx]
          simp [emptyToolCall, appendPiece_eq, string_empty_append]
        · have h1 : acc.length ≤ j := le_of_lt hjgt
          rw [getD_append_beyond emptyToolCall _ _ hjgt, getD_of_len_le emptyToolCall _ h1]
          rw [pieceFor_of_ne hidx (Nat.ne_of_lt hjgt), pieceFor_of_ne hidx (Nat.ne_of_lt hjgt),
            pieceFor_of_ne hidx (Nat.ne_of_lt hjgt), toolCall_eta_append]
      · -- gap: the addressed entry is still absent after the push
        have hnone : (acc ++ [emptyToolCall])[i]? = none :=
          List.getElem?_eq_none_iff.mpr (by simpa using hi)
        rw [hnone] at h
        by_cases htr : (truthyStr d.id || truthyStr d.name || truthyStr d.arguments) = true
        · rw [if_pos htr] at h; cases h
        · rw [if_neg htr] at h
          simp only [Option.some.injEq] at h
          subst h
          have h1 : truthyStr d.id = false := by
            cases hx : truthyStr d.id <;> simp_all
          have h2 : truthyStr d.name = false := by
            cases hx : truthyStr d.name <;> simp_all
          have h3 : truthyStr d.arguments = false := by
            cases hx : truthyStr d.arguments <;> simp_all
          refine ⟨by simp, fun j => ?_⟩
          have hp : pieceFor j (fun x => x.id) d = "" ∧
              pieceFor j (fun x => x.name) d = "" ∧
              pieceFor j (fun x => x.arguments) d = "" := by
            refine ⟨?_, ?_, ?_⟩ <;> simp only [pieceFor, hidx] <;> split <;>
              simp [getD_empty_of_falsy, h1, h2, h3]
          rw [hp.1, hp.2.1, hp.2.2]
          rcases Nat.lt_trichotomy j acc.length with hjlt | hje | hjgt
          · rw [getD_append_left _ _ _ hjlt, toolCall_eta_append]
          · subst hje
            rw [getD_append_last, getD_of_len_le _ _ (le_refl _), toolCall_eta_append]
          · have hj1 : acc.length ≤ j := le_of_lt hjgt
            have hj2 : (acc ++ [emptyToolCall]).length ≤ j := by simpa using hjgt
            rw [getD_of_len_le _ _ hj2, getD_of_len_le _ _ hj1, toolCall_eta_append]
    · -- no push: the entry exists at `i < acc.length`
      have hilt : i < acc.length := by omega
      simp only [if_neg hlen] at h
      rw [List.getElem?_eq_getElem hilt] at h
      simp only [Option.some.injEq] at h
      subst h
      refine ⟨by simp, fun j => ?_⟩
      by_cases hj : j = i
      · subst hj
        rw [getD_set_self _ _ hilt]
        have hg : acc.getD j emptyToolCall = acc[j] := by
          simp [List.getD, List.getElem?_eq_getElem hilt]
        rw [hg]
        rw [pieceFor_of_eq hidx, pieceFor_of_eq hidx, pieceFor_of_eq hidx]
        simp [appendPiece_eq]
      · rw [getD_set_other _ _ (Ne.symm hj)]
        rw [pieceFor_of_ne hidx (Ne.symm hj), pieceFor_of_ne hidx (Ne.symm hj),
          pieceFor_of_ne hidx (Ne.symm hj), toolCall_eta_append]

/-- The stream loop, from any start state: every position ends as its start
value extended by the in-order concatenation of its delivered pieces. -/
lemma applyDeltas_getD (ds : List ToolCallDelta) :
    ∀ (acc tcs : List ToolCall), applyDeltas acc ds = some tcs →
      acc.length ≤ tcs.length ∧ ∀ j : Nat,
        tcs.getD j emptyToolCall =
          ⟨(acc.getD j emptyToolCall).id ++ catFor j (fun x => x.id) ds,
           (acc.getD j emptyToolCall).name ++ catFor j (fun x => x.name) ds,
           (acc.getD j emptyToolCall).arguments ++ catFor j (fun x => x.arguments) ds⟩ := by
  induction ds with
  | nil =>
    intro acc tcs h
    simp only [applyDeltas, Option.some.injEq] at h
    subst h
    exact ⟨le_refl _, fun j => by simp [catFor, toolCall_eta_append]⟩
  | cons d rest ih =>
    intro acc tcs h
    simp only [applyDeltas] at h
    match hstep : applyDelta acc d with
    | none => rw [hstep] at h; cases h
    | some acc' =>
      rw [hstep] at h
      obtain ⟨hlen1, hget1⟩ := applyDelta_getD acc acc' d hstep
      obtain ⟨hlen2, hget2⟩ := ih acc' tcs h
      refine ⟨le_trans hlen1 hlen2, fun j => ?_⟩
      rw [hget2 j, hget1 j]
      simp [catFor, String.append_assoc]

lemma appendPiece_empty (s : String) : appendPiece "" (some s) = s := by
  by_cases h : s = "" <;> simp [appendPiece, h, string_empty_append]

/-- Delivering a whole call as one delta addressed at the current length
appends exactly that call. -/
lemma applyDelta_whole (acc : List ToolCall) (c : ToolCall) :
    applyDelta acc ⟨some acc.length, some c.id, some c.name, some c.arguments⟩ =
      some (acc ++ [c]) := by
  simp only [applyDelta, le_refl, if_pos, List.getElem?_concat_length]
  rw [set_concat]
  simp [appendPiece_empty, emptyToolCall]

lemma applyDeltas_singleFragmentFrom (rest : List ToolCall) :
    ∀ acc : List ToolCall,
      applyDeltas acc (singleFragmentFrom acc.length rest) = some (acc ++ rest) := by
  induction rest with
  | nil => intro acc; simp [singleFragmentFrom, applyDeltas]
  | cons c rest ih =>
    intro acc
    simp only [singleFragmentFrom, applyDeltas, applyDelta_whole]
    have := ih (acc ++ [c])
    simp only [List.length_append, List.length_cons, List.length_nil] at this
    simpa [List.append_assoc] using this

/-- A delta whose index is at most the current length succeeds and leaves
`max n (i+1)` accumulators. -/
lemma applyDelta_contig {d : ToolCallDelta} {i : Nat} (hidx : d.index = some i)
    (acc : List ToolCall) (hle : i ≤ acc.length) :
    ∃ acc', applyDelta acc d = some acc' ∧ acc'.length = max acc.length (i + 1) := by
  by_cases hieq : i = acc.length
  · subst hieq
    refine ⟨acc ++ [{ id := appendPiece emptyToolCall.id d.id
                      name := appendPiece emptyToolCall.name d.name
                      arguments := appendPiece emptyToolCall.arguments d.arguments }], ?_, ?_⟩
    · simp [applyDelta, hidx, List.getElem?_concat_length, set_concat]
    · simp
  · have hilt : i < acc.length := by omega
    have hnp : ¬ acc.length ≤ i := by omega
    refine ⟨acc.set i
      { id := appendPiece (acc.get ⟨i, hilt⟩).id d.id
        name := appendPiece (acc.get ⟨i, hilt⟩).name d.name
        arguments := appendPiece (acc.get ⟨i, hilt⟩).arguments d.arguments }, ?_, ?_⟩
    · simp [applyDelta, hidx, if_neg hnp, List.getElem?_eq_getElem hilt,
        List.get_eq_getElem]
    · simp; omega

/-- Contiguous arrival never reaches the error path. -/
lemma applyDeltas_isSome_of_contiguous (ds : List ToolCallDelta) :
    ∀ acc : List ToolCall, contiguousFrom acc.length ds = true →
      (applyDeltas acc ds).isSome = true := by
  induction ds with
  | nil => intro acc _; simp [applyDeltas]
  | cons d rest ih =>
    intro acc hc
    match hidx : d.index with
    | none =>
      simp only [contiguousFrom, hidx] at hc
      simpa [applyDeltas, applyDelta, hidx] using ih acc hc
    | some i =>
      simp only [contiguousFrom, hidx, Bool.and_eq_true, decide_eq_true_eq] at hc
      obtain ⟨hle, hc⟩ := hc
      obtain ⟨acc', hstep, hlen⟩ := applyDelta_contig hidx acc hle
      simp only [applyDeltas, hstep]
      apply ih
      rw [hlen]
      exact hc

/-- The claim's example delta stream: `write_file`'s name split over two
fragments and its JSON arguments over two more. -/
def exampleDeltas : List ToolCallDelta :=
  [⟨some 0, none, some "wri", none⟩,
   ⟨some 0, none, some "te_file", none⟩,
   ⟨some 0, none, none, some "\x7b\"path\":\"a.ts\""⟩,
   ⟨some 0, none, none, some ",\"content\":\"x\"\x7d"⟩]

/-- The single call the example stream must assemble to. -/
def exampleCalls : List ToolCall :=
  [⟨"", "write_file", "\x7b\"path\":\"a.ts\",\"content\":\"x\"\x7d"⟩]

/-- C1: Streaming tool-call assembly is partition-invariant: whenever the
stream loop completes on an in-order delta sequence, every assembled entry's
id, name and arguments are the in-order concatenation of the pieces
delivered for its index, and re-delivering each whole call as a single
fragment reassembles the same list; in particular the example stream
(name "wri"+"te_file", arguments split across two fragments) yields the
single call `write_file` with the concatenated JSON arguments. -/
theorem toolcall_assembly_partition_invariant
    (ds : List ToolCallDelta) (tcs : List ToolCall)
    (h : assembleToolCalls ds = some tcs) :
    (∀ j : Nat, (hj : j < tcs.length) → tcs.get ⟨j, hj⟩ = gatheredCall ds j)
    ∧ assembleToolCalls (singleFragmentDeltas tcs) = some tcs
    ∧ assembleToolCalls exampleDeltas = some exampleCalls := by
  obtain ⟨-, hget⟩ := applyDeltas_getD ds [] tcs h
  refine ⟨fun j hj => ?_, ?_, by decide⟩
  · have hD := hget j
    rw [getD_of_len_le emptyToolCall ([] : List ToolCall) (Nat.zero_le j)] at hD
    rw [getD_get emptyToolCall tcs hj] at hD
    rw [hD]
    simp [gatheredCall, emptyToolCall, string_empty_append]
  · have := applyDeltas_singleFragmentFrom tcs ([] : List ToolCall)
    simpa [assembleToolCalls, singleFragmentDeltas] using this

/-- Witness for C1 at the example stream. -/
theorem toolcall_assembly_partition_invariant_witness :
    assembleToolCalls exampleDeltas = some exampleCalls
    ∧ exampleCalls.get ⟨0, by decide⟩ = gatheredCall exampleDeltas 0
    ∧ assembleToolCalls (singleFragmentDeltas exampleCalls) = some exampleCalls := by
  have h := toolcall_assembly_partition_invariant exampleDeltas exampleCalls (by decide)
  exact ⟨by decide, h.1 0 (by decide), h.2.1⟩

/-- C10: under contiguous arrival (each tool-call delta's index at most the
accumulated length, so a fresh index equals the current length) assembly
always succeeds, while a gapped first delta (index 1 before index 0, with a
truthy field piece) pushes a single empty accumulator, dereferences the
absent entry and aborts through the error path. -/
theorem toolcall_assembly_contiguity (ds : List ToolCallDelta)
    (h : contiguousFrom 0 ds = true) :
    (assembleToolCalls ds).isSome = true
    ∧ assembleToolCalls [⟨some 1, none, some "x", none⟩] = none := by
  refine ⟨?_, by decide⟩
  have := applyDeltas_isSome_of_contiguous ds ([] : List ToolCall)
  simpa [assembleToolCalls] using this (by simpa using h)

/-- Witness for C10 at a concrete contiguous two-call stream. -/
theorem toolcall_assembly_contiguity_witness :
    (assembleToolCalls
      [⟨some 0, some "a", none, none⟩, ⟨some 1, none, some "b", none⟩]).isSome = true :=
  (toolcall_assembly_contiguity
    [⟨some 0, some "a", none, none⟩, ⟨some 1, none, some "b", none⟩] (by decide)).1

/-! ## Safety gate (`part_004` lines 500-517, 1330-1360, 770-782)

Tool risk tiers and the confirmation decision of `Agent.run`:

```js
const CRITICAL_TOOLS = ['delete_file', 'execute_command'];
const DANGEROUS_TOOLS = ['execute_command', 'delete_file', 'write_file', 'move_file',
    'edit_file', 'edit_file_by_lines', 'multi_edit_file', 'insert_at_line'];
...
let needsConfirmation = false;
if (this._safetyLevel === 'full' && DANGEROUS_TOOLS.includes(functionName)) {
    needsConfirmation = true;
} else if (this._safetyLevel === 'delete-only' && CRITICAL_TOOLS.includes(functionName)) {
    needsConfirmation = true;
}
```
-/

def CRITICAL_TOOLS : List String := ["delete_file", "execute_command"]

def DANGEROUS_TOOLS : List String :=
  ["execute_command", "delete_file", "write_file", "move_file",
   "edit_file", "edit_file_by_lines", "multi_edit_file", "insert_at_line"]

/-- The confirmation-required decision of `Agent.run`, a pure function of
the safety level and the tool name. -/
def needsConfirmation (safetyLevel functionName : String) : Bool :=
  if safetyLevel == "full" && DANGEROUS_TOOLS.contains functionName then true
  else if safetyLevel == "delete-only" && CRITICAL_TOOLS.contains functionName then true
  else false

/-- C2: the confirmation decision as a pure function of (safetyLevel,
toolName): under `full` exactly the eight dangerous tools need
confirmation, under `delete-only` exactly `delete_file` and
`execute_command`, under `off` no tool ever does; in particular
`delete-only` lets `write_file` through without confirmation but stops
`delete_file`. -/
theorem safety_gate_decision (name : String) :
    (needsConfirmation "full" name = true ↔
      (name = "execute_command" ∨ name = "delete_file" ∨ name = "write_file" ∨
       name = "move_file" ∨ name = "edit_file" ∨ name = "edit_file_by_lines" ∨
       name = "multi_edit_file" ∨ name = "insert_at_line"))
    ∧ (needsConfirmation "delete-only" name = true ↔
      (name = "delete_file" ∨ name = "execute_command"))
    ∧ needsConfirmation "off" name = false
    ∧ needsConfirmation "delete-only" "write_file" = false
    ∧ needsConfirmation "delete-only" "delete_file" = true := by
  refine ⟨?_, ?_, ?_, by decide, by decide⟩ <;>
    simp [needsConfirmation, DANGEROUS_TOOLS, CRITICAL_TOOLS, List.elem_iff,
      beq_iff_eq] <;> tauto

/-! ## Confirmation answers and the denial branch

`Agent.confirmDangerousAction` (lines 770-782):

```js
const normalized = (answer || '').toLowerCase().trim();
const confirmed = normalized === 'y' || normalized === 'yes';
```

and the gated execution branch of `Agent.run` (lines 1339-1360): on denial
the tool function is never called and a fixed synthetic refusal string is
recorded as the tool result with `toolSuccess = false`; on approval the
tool runs and a thrown error is caught into an error string.  After the
batch, the loop `break`s only when some executed call was `task_complete`
(`completed = true`), otherwise it requests the next model turn. -/

/-- `Agent.confirmDangerousAction`'s reading of the user's answer. -/
def confirmAnswerAccepted (answer : String) : Bool :=
  let normalized := jsTrim (jsToLower answer)
  normalized == "y" || normalized == "yes"

/-- The synthetic tool result recorded on denial. -/
def deniedToolResult : String :=
  "User denied this operation. Please ask for user consent before retrying, or try a different approach."

/-- Result of one gated tool call: the recorded content, the success flag,
and whether the underlying tool function was invoked at all. -/
structure GatedOutcome where
  content : String
  success : Bool
  invoked : Bool
  deriving DecidableEq, Repr

/-- The gated branch of `Agent.run` for one tool call needing confirmation:
parse the answer; on approval invoke the tool (catching a thrown error into
an error result), on denial record the fixed refusal without invoking. -/
def gatedToolStep (answer : String) (tool : Unit → Except String String) : GatedOutcome :=
  if confirmAnswerAccepted answer then
    match tool () with
    | .ok out => ⟨out, true, true⟩
    | .error e => ⟨"Tool execution failed unexpectedly: " ++ e, false, true⟩
  else ⟨deniedToolResult, false, false⟩

/-- `completed` is set for a processed call exactly when its name is
`task_complete` (`if (functionName === 'task_complete') completed = true`);
the run loop `break`s only on `completed`. -/
def signalsCompletion (functionName : String) : Bool :=
  functionName == "task_complete"

/-- C6: an answer approves exactly when its lowercased, trimmed text is
"y" or "yes"; any other answer (the empty string included) is a denial, on
which the tool function is not invoked, the recorded result is the fixed
synthetic refusal string with success = false (no exception escapes: the
outcome is the same total value for every tool), and — since a gated tool
is never `task_complete` — the run loop proceeds to the next model turn
rather than terminating. -/
theorem denial_semantics (answer lvl name : String) (tool : Unit → Except String String)
    (h : confirmAnswerAccepted answer = false) :
    (confirmAnswerAccepted answer = true ↔
      (jsTrim (jsToLower answer) = "y" ∨ jsTrim (jsToLower answer) = "yes"))
    ∧ gatedToolStep answer tool = ⟨deniedToolResult, false, false⟩
    ∧ (needsConfirmation lvl name = true → signalsCompletion name = false) := by
  refine ⟨?_, ?_, ?_⟩
  · simp [confirmAnswerAccepted]
  · simp [gatedToolStep, h]
  · intro hconf
    simp only [needsConfirmation] at hconf
    by_cases h1 : (lvl == "full" && DANGEROUS_TOOLS.contains name) = true
    · have : name ∈ DANGEROUS_TOOLS := by
        simp only [Bool.and_eq_true] at h1
        simpa [List.elem_iff] using h1.2
      simp only [DANGEROUS_TOOLS, List.mem_cons, List.not_mem_nil, or_false] at this
      rcases this with h | h | h | h | h | h | h | h <;> subst h <;> decide
    · rw [if_neg h1] at hconf
      by_cases h2 : (lvl == "delete-only" && CRITICAL_TOOLS.contains name) = true
      · have : name ∈ CRITICAL_TOOLS := by
          simp only [Bool.and_eq_true] at h2
          simpa [List.elem_iff] using h2.2
        simp only [CRITICAL_TOOLS, List.mem_cons, List.not_mem_nil, or_false] at this
        rcases this with h | h <;> subst h <;> decide
      · rw [if_neg h2] at hconf
        cases hconf

/-- Witness for C6: answering "n" to a gated `execute_command` call. -/
theorem denial_semantics_witness :
    confirmAnswerAccepted "n" = false
    ∧ gatedToolStep "n" (fun _ => .error "boom") = ⟨deniedToolResult, false, false⟩
    ∧ signalsCompletion "execute_command" = false := by
  have h := denial_semantics "n" "full" "execute_command"
    (fun _ => .error "boom") (by decide)
  exact ⟨by decide, h.2.1, h.2.2 (by decide)⟩

/-! ## Context budget manager (`part_004` lines 15-16, 1000-1061)

```js
const MAX_CONTEXT_TOKENS = 100000;
const CHARS_PER_TOKEN = 3.5;

private estimateTokens(text) { return Math.ceil(text.length / CHARS_PER_TOKEN); }

private estimateMessagesTokens(messages) {
    let total = 0;
    for (const msg of messages) {
        if (typeof msg.content === 'string') total += this.estimateTokens(msg.content);
        else if (msg.content) total += this.estimateTokens(JSON.stringify(msg.content));
        total += 4;
    }
    return total;
}

private trimToTokenLimit(messages, maxTokens) {
    const systemPromptReserve = 1500;
    const availableTokens = maxTokens - systemPromptReserve;
    const estimatedTokens = this.estimateMessagesTokens(messages);
    if (estimatedTokens <= availableTokens) return messages;
    const avgTokensPerMessage = messages.length > 0 ? estimatedTokens / messages.length : 0;
    if (avgTokensPerMessage === 0) return messages;
    const excessTokens = estimatedTokens - availableTokens;
    const messagesToRemove = Math.min(Math.ceil(excessTokens / avgTokensPerMessage),
        messages.length - 1);
    return messages.slice(messagesToRemove);
}
```

`Math.ceil(len / 3.5)` over the natural sizes involved is exactly
`⌈2·len / 7⌉`, and `Math.ceil(excess / (est / count))` is exactly
`⌈excess·count / est⌉` (the float divisions are exact-rational here);
`maxTokens` is always `MAX_CONTEXT_TOKENS = 100000 ≥ 1500` at every call
site, so natural subtraction for `availableTokens` is faithful.  The
`avgTokensPerMessage === 0` test holds exactly when the list is empty or
the estimate is zero (the ternary yields 0 on an empty list). -/

/-- A message's content: a string, a non-string object (carried as the
`JSON.stringify` rendering the estimator would hash), or null/undefined. -/
inductive MsgContent
  | str (s : String)
  | obj (json : String)
  | nullContent
  deriving DecidableEq, Repr

structure Msg where
  content : MsgContent
  deriving DecidableEq, Repr

/-- `⌈a / b⌉` on naturals. -/
def ceilDiv (a b : Nat) : Nat := (a + b - 1) / b

/-- `Agent.estimateTokens`: `Math.ceil(text.length / 3.5) = ⌈2·len/7⌉`. -/
def estimateTokens (text : String) : Nat := ceilDiv (2 * text.length) 7

/-- Per-message contribution of `Agent.estimateMessagesTokens`: the content
estimate plus the fixed overhead of 4. -/
def msgTokens (m : Msg) : Nat :=
  (match m.content with
   | .str s => estimateTokens s
   | .obj json => estimateTokens json
   | .nullContent => 0) + 4

/-- `Agent.estimateMessagesTokens`. -/
def estimateMessagesTokens : List Msg → Nat
  | [] => 0
  | m :: rest => msgTokens m + estimateMessagesTokens rest

/-- `Agent.trimToTokenLimit`. -/
def trimToTokenLimit (messages : List Msg) (maxTokens : Nat) : List Msg :=
  let systemPromptReserve := 1500
  let availableTokens := maxTokens - systemPromptReserve
  let estimatedTokens := estimateMessagesTokens messages
  if estimatedTokens ≤ availableTokens then messages
  else if messages.length = 0 ∨ estimatedTokens = 0 then messages
  else
    let excessTokens := estimatedTokens - availableTokens
    let messagesToRemove :=
      min (ceilDiv (excessTokens * messages.length) estimatedTokens) (messages.length - 1)
    messages.drop messagesToRemove

/-! ### Budget manager lemmas -/

lemma estimateMessagesTokens_append (a b : List Msg) :
    estimateMessagesTokens (a ++ b) = estimateMessagesTokens a + estimateMessagesTokens b := by
  induction a with
  | nil => simp [estimateMessagesTokens]
  | cons m rest ih => simp [estimateMessagesTokens, ih]; omega

lemma estimateMessagesTokens_replicate (n : Nat) (m : Msg) :
    estimateMessagesTokens (List.replicate n m) = n * msgTokens m := by
  induction n with
  | zero => simp [estimateMessagesTokens]
  | succ k ih => simp [List.replicate, estimateMessagesTokens, ih]; ring

lemma estimateMessagesTokens_uniform {t : Nat} :
    ∀ {msgs : List Msg}, (∀ m ∈ msgs, msgTokens m = t) →
      estimateMessagesTokens msgs = msgs.length * t := by
  intro msgs
  induction msgs with
  | nil => intro _; simp [estimateMessagesTokens]
  | cons m rest ih =>
    intro h
    have hm : msgTokens m = t := h m (List.mem_cons_self m rest)
    have hr := ih (fun x hx => h x (List.mem_cons_of_mem m hx))
    simp [estimateMessagesTokens, hm, hr]; ring

lemma ceilDiv_mul_ge (a b : Nat) (hb : 0 < b) : a ≤ ceilDiv a b * b := by
  unfold ceilDiv
  have h := Nat.div_add_mod (a + b - 1) b
  have hmod : (a + b - 1) % b < b := Nat.mod_lt _ hb
  have hcomm : (a + b - 1) / b * b = b * ((a + b - 1) / b) := Nat.mul_comm _ _
  omega

/-- The exceed branch of `trimToTokenLimit` is the bulk drop. -/
lemma trimToTokenLimit_of_exceeds {messages : List Msg} {maxTokens : Nat}
    (h : maxTokens - 1500 < estimateMessagesTokens messages) :
    trimToTokenLimit messages maxTokens =
      messages.drop
        (min (ceilDiv ((estimateMessagesTokens messages - (maxTokens - 1500)) * messages.length)
              (estimateMessagesTokens messages))
          (messages.length - 1)) := by
  have hestpos : 0 < estimateMessagesTokens messages := by omega
  have hne : messages ≠ [] := by
    intro hnil
    rw [hnil] at hestpos
    simp [estimateMessagesTokens] at hestpos
  have hlen : messages.length ≠ 0 := by simpa using hne
  unfold trimToTokenLimit
  rw [if_neg (by omega), if_neg (by omega)]

/-- The fitting branch of `trimToTokenLimit` returns the input unchanged. -/
lemma trimToTokenLimit_of_fits {messages : List Msg} {maxTokens : Nat}
    (h : estimateMessagesTokens messages ≤ maxTokens - 1500) :
    trimToTokenLimit messages maxTokens = messages := by
  unfold trimToTokenLimit
  rw [if_pos h]

lemma strlen_mk (l : List Char) : (String.mk l).length = l.length := rfl

/-- A message whose string content is `n` repeated characters. -/
def mkStrMsg (n : Nat) : Msg := ⟨.str (String.mk (List.replicate n 'a'))⟩

lemma msgTokens_mkStrMsg (n : Nat) :
    msgTokens (mkStrMsg n) = ceilDiv (2 * n) 7 + 4 := by
  simp only [mkStrMsg, msgTokens, estimateTokens]
  rw [strlen_mk, List.length_replicate]

/-- The claim's trimming scenario: 120 messages of 1000 estimated tokens
each (3486 characters: `⌈2·3486/7⌉ + 4 = 996 + 4 = 1000`). -/
def c3Messages : List Msg := List.replicate 120 (mkStrMsg 3486)

lemma c3Messages_estimate : estimateMessagesTokens c3Messages = 120000 := by
  unfold c3Messages
  rw [estimateMessagesTokens_replicate, msgTokens_mkStrMsg]
  norm_num [ceilDiv]

/-- C3: whenever the estimate exceeds the available budget
`maxTokens − 1500`, `trimToTokenLimit` drops exactly
`min(⌈excess / (estimate/count)⌉, count − 1)` oldest messages in one slice
(the result is the contiguous remaining suffix in original order); in
particular with available budget 98500 and 120 messages estimating 120000
tokens, exactly 22 oldest messages are removed and 98 remain. -/
theorem trim_bulk_formula (messages : List Msg) (maxTokens : Nat)
    (h : maxTokens - 1500 < estimateMessagesTokens messages) :
    trimToTokenLimit messages maxTokens =
      messages.drop
        (min (ceilDiv ((estimateMessagesTokens messages - (maxTokens - 1500)) * messages.length)
              (estimateMessagesTokens messages))
          (messages.length - 1))
    ∧ estimateMessagesTokens c3Messages = 120000
    ∧ c3Messages.length = 120
    ∧ trimToTokenLimit c3Messages 100000 = c3Messages.drop 22
    ∧ (trimToTokenLimit c3Messages 100000).length = 98 := by
  have hc3len : c3Messages.length = 120 := by simp [c3Messages]
  have hc3 : trimToTokenLimit c3Messages 100000 = c3Messages.drop 22 := by
    rw [trimToTokenLimit_of_exceeds (by rw [c3Messages_estimate]; norm_num)]
    rw [c3Messages_estimate, hc3len]
    norm_num [ceilDiv]
  refine ⟨trimToTokenLimit_of_exceeds h, c3Messages_estimate, hc3len, hc3, ?_⟩
  rw [hc3, List.length_drop, hc3len]

/-- Witness for C3 on a small over-budget list: two 4-token messages
against a zero budget drop `min(⌈16/8⌉, 1) = 1` message. -/
theorem trim_bulk_formula_witness :
    trimToTokenLimit [⟨.nullContent⟩, ⟨.nullContent⟩] 1500 = [⟨.nullContent⟩]
    ∧ (trimToTokenLimit c3Messages 100000).length = 98 := by
  have h := trim_bulk_formula [⟨.nullContent⟩, ⟨.nullContent⟩] 1500 (by decide)
  refine ⟨?_, h.2.2.2.2⟩
  rw [h.1]
  decide

/-- C4's counterexample input: a 4-token message followed by a
100004-token message (350000 characters), totalling 100008 estimated
tokens against the 98500 available. -/
def c4Messages : List Msg := [⟨.str ""⟩, mkStrMsg 350000]

lemma estimateMessagesTokens_nil : estimateMessagesTokens [] = 0 := rfl

lemma estimateMessagesTokens_cons (m : Msg) (rest : List Msg) :
    estimateMessagesTokens (m :: rest) = msgTokens m + estimateMessagesTokens rest := rfl

lemma msgTokens_big : msgTokens (mkStrMsg 350000) = 100004 := by
  rw [msgTokens_mkStrMsg]
  norm_num [ceilDiv]

lemma c4Messages_estimate : estimateMessagesTokens c4Messages = 100008 := by
  show estimateMessagesTokens (⟨.str ""⟩ :: [mkStrMsg 350000]) = 100008
  rw [estimateMessagesTokens_cons, estimateMessagesTokens_cons, estimateMessagesTokens_nil,
    msgTokens_big]
  norm_num [msgTokens, estimateTokens, ceilDiv]

/-- C4 counterexample: the claim "the trimmed list's estimate is at most
maxTokens − 1500" fails on `c4Messages` with `maxTokens = 100000`: the
input exceeds the budget, trimming drops the (tiny) oldest message, and
the non-empty result still estimates 100004 > 98500 — the bulk count is
computed from the average message size, which under-removes when sizes
are non-uniform. -/
theorem trim_fit_counterexample :
    100000 - 1500 < estimateMessagesTokens c4Messages
    ∧ trimToTokenLimit c4Messages 100000 = [mkStrMsg 350000]
    ∧ trimToTokenLimit c4Messages 100000 ≠ []
    ∧ 100000 - 1500 < estimateMessagesTokens (trimToTokenLimit c4Messages 100000) := by
  have hex : 100000 - 1500 < estimateMessagesTokens c4Messages := by
    rw [c4Messages_estimate]; norm_num
  have htrim : trimToTokenLimit c4Messages 100000 = [mkStrMsg 350000] := by
    rw [trimToTokenLimit_of_exceeds hex, c4Messages_estimate]
    norm_num [ceilDiv, c4Messages]
  refine ⟨hex, htrim, by rw [htrim]; simp, ?_⟩
  rw [htrim]
  show 98500 < estimateMessagesTokens [mkStrMsg 350000]
  rw [estimateMessagesTokens_cons, estimateMessagesTokens_nil, msgTokens_big]
  norm_num

/-- C4 amended: for an over-budget list the result is always a non-empty
suffix; and when every message has the same estimated cost `t` and the
uncapped bulk count fits under the `count − 1` cap, the remaining
estimate does fit within `maxTokens − 1500`. -/
theorem trim_uniform_fit (messages : List Msg) (maxTokens t : Nat)
    (huni : ∀ m ∈ messages, msgTokens m = t)
    (hex : maxTokens - 1500 < estimateMessagesTokens messages)
    (hcap : ceilDiv ((estimateMessagesTokens messages - (maxTokens - 1500)) * messages.length)
        (estimateMessagesTokens messages) ≤ messages.length - 1) :
    trimToTokenLimit messages maxTokens ≠ []
    ∧ estimateMessagesTokens (trimToTokenLimit messages maxTokens) ≤ maxTokens - 1500 := by
  have hest : estimateMessagesTokens messages = messages.length * t :=
    estimateMessagesTokens_uniform huni
  have hestpos : 0 < estimateMessagesTokens messages := by omega
  have hn : 0 < messages.length := by
    rcases Nat.eq_zero_or_pos messages.length with h0 | h0
    · rw [hest, h0] at hestpos; omega
    · exact h0
  have ht : 0 < t := by
    rcases Nat.eq_zero_or_pos t with h0 | h0
    · rw [hest, h0] at hestpos; omega
    · exact h0
  set r := ceilDiv
    ((estimateMessagesTokens messages - (maxTokens - 1500)) * messages.length)
    (estimateMessagesTokens messages) with hr
  have htrim : trimToTokenLimit messages maxTokens = messages.drop r := by
    rw [trimToTokenLimit_of_exceeds hex, min_eq_left hcap]
  have hkey : estimateMessagesTokens messages - (maxTokens - 1500) ≤ r * t := by
    have h1 : (estimateMessagesTokens messages - (maxTokens - 1500)) * messages.length ≤
        (r * t) * messages.length := by
      calc (estimateMessagesTokens messages - (maxTokens - 1500)) * messages.length
          ≤ r * estimateMessagesTokens messages := ceilDiv_mul_ge _ _ hestpos
        _ = r * (messages.length * t) := by rw [← hest]
        _ = (r * t) * messages.length := by ring
    exact Nat.le_of_mul_le_mul_right h1 hn
  have hdropuni : ∀ m ∈ messages.drop r, msgTokens m = t := fun m hm =>
    huni m (List.mem_of_mem_drop hm)
  have hdropest : estimateMessagesTokens (messages.drop r) =
      (messages.length - r) * t := by
    rw [estimateMessagesTokens_uniform hdropuni, List.length_drop]
  constructor
  · rw [htrim]
    intro hnil
    have := congrArg List.length hnil
    rw [List.length_drop] at this
    simp only [List.length_nil] at this
    omega
  · rw [htrim, hdropest]
    have hsub : (messages.length - r) * t = messages.length * t - r * t :=
      Nat.sub_mul messages.length r t
    rw [hsub]
    omega

/-- Witness for C4's amended statement: two uniform 4-token messages over a
5-token budget drop one message and the remaining 4 tokens fit. -/
theorem trim_uniform_fit_witness :
    trimToTokenLimit [⟨.nullContent⟩, ⟨.nullContent⟩] 1505 ≠ []
    ∧ estimateMessagesTokens (trimToTokenLimit [⟨.nullContent⟩, ⟨.nullContent⟩] 1505)
        ≤ 1505 - 1500 :=
  trim_uniform_fit [⟨.nullContent⟩, ⟨.nullContent⟩] 1505 4
    (by decide) (by decide) (by decide)

/-- C5: trimming an already-fitting history (the empty history included)
returns it unchanged, hence re-trimming a fitting output is idempotent;
and trimming never empties a non-empty history. -/
theorem trim_idempotent_nonempty (messages : List Msg) (maxTokens : Nat) :
    (estimateMessagesTokens messages ≤ maxTokens - 1500 →
      trimToTokenLimit messages maxTokens = messages)
    ∧ (messages ≠ [] → trimToTokenLimit messages maxTokens ≠ [])
    ∧ (estimateMessagesTokens (trimToTokenLimit messages maxTokens) ≤ maxTokens - 1500 →
        trimToTokenLimit (trimToTokenLimit messages maxTokens) maxTokens =
          trimToTokenLimit messages maxTokens)
    ∧ trimToTokenLimit ([] : List Msg) maxTokens = [] := by
  refine ⟨fun h => trimToTokenLimit_of_fits h, ?_, fun h => trimToTokenLimit_of_fits h,
    trimToTokenLimit_of_fits (by simp [estimateMessagesTokens])⟩
  intro hne
  by_cases hfit : estimateMessagesTokens messages ≤ maxTokens - 1500
  · rw [trimToTokenLimit_of_fits hfit]; exact hne
  · rw [trimToTokenLimit_of_exceeds (by omega)]
    intro hnil
    have hlen := congrArg List.length hnil
    rw [List.length_drop] at hlen
    simp only [List.length_nil] at hlen
    have hpos : 0 < messages.length := List.length_pos.2 hne
    have hmin : min (ceilDiv ((estimateMessagesTokens messages - (maxTokens - 1500)) *
        messages.length) (estimateMessagesTokens messages)) (messages.length - 1)
        ≤ messages.length - 1 := min_le_right _ _
    omega

/-! ## Planning controller state (`part_004` lines 539-540, 671-691, 1547-1807)

```js
private pendingPlan: string | null = null;
private pendingPlanTask: string | null = null;
get hasPendingPlan() { return this.pendingPlan !== null; }
clearPlan() { this.pendingPlan = null; this.pendingPlanTask = null; }

async plan(task) {
    ...
    this.clearPlan();            // Clear any previous plan (before exploring)
    ... exploration loop ...
    if (fullContent && (fullContent.includes('EXECUTION PLAN') || fullContent.includes('Steps:'))) {
        this.pendingPlan = fullContent;
        this.pendingPlanTask = task;
    }
}

async executePlan() {
    if (!this.pendingPlan || !this.pendingPlanTask) { ...; return; }
    const executionPrompt = `...${this.pendingPlanTask}...${this.pendingPlan}...`;
    this.clearPlan();            // Clear the plan after execution starts
    await this.run(executionPrompt);
}
```

`Agent.run` contains no assignment to `pendingPlan` or `pendingPlanTask`,
so its effect on the plan fields is the identity. -/

structure PlanState where
  pendingPlan : Option String
  pendingPlanTask : Option String
  deriving DecidableEq, Repr

def hasPendingPlan (s : PlanState) : Bool := s.pendingPlan.isSome

def clearPlan (_ : PlanState) : PlanState := ⟨none, none⟩

/-- The start of `Agent.plan`: any previous plan is cleared before the
read-only exploration begins. -/
def planStart (s : PlanState) : PlanState := clearPlan s

/-- The end of `Agent.plan`: store the text as the pending plan exactly
when it is non-empty and carries a plan marker. -/
def planFinish (s : PlanState) (task fullContent : String) : PlanState :=
  if fullContent ≠ "" &&
      (jsIncludes fullContent "EXECUTION PLAN" || jsIncludes fullContent "Steps:") then
    { pendingPlan := some fullContent, pendingPlanTask := some task }
  else s

/-- The execution prompt `Agent.executePlan` constructs. -/
def executionPrompt (task plan : String) : String :=
  "\nExecute the following plan that was created after analyzing the codebase:\n\n=== ORIGINAL TASK ===\n"
    ++ task
    ++ "\n\n=== APPROVED PLAN ===\n"
    ++ plan
    ++ "\n\n=== INSTRUCTIONS ===\nExecute each step in the plan. You now have access to ALL tools including write, edit, and execute.\nFollow the plan closely but adapt if you encounter any unexpected issues.\n"

/-- `Agent.executePlan`: the returned state is the one at the moment the
Run Controller starts (the plan is cleared strictly before `run` is
awaited); the second component is the prompt handed to `run`, `none` when
nothing executes.  JS string truthiness guards the entry check
(`!this.pendingPlan || !this.pendingPlanTask`). -/
def executePlan (s : PlanState) : PlanState × Option String :=
  match s.pendingPlan, s.pendingPlanTask with
  | some p, some t =>
    if p = "" ∨ t = "" then (s, none)
    else (clearPlan s, some (executionPrompt t p))
  | _, _ => (s, none)

/-- `Agent.run` never writes the plan fields. -/
def runEffectOnPlanState (s : PlanState) : PlanState := s

/-- C7: a PendingPlan is consumed at most once and at most one exists at a
time. `plan` clears any stored plan before exploring; whenever
`executePlan` hands a prompt to the Run Controller, the plan and task were
cleared strictly before the run starts, `hasPendingPlan` is false from
that moment on (the run never restores it, even if it fails), and a second
`executePlan` with no new plan stored executes nothing; with no pending
plan `executePlan` is a no-op. -/
theorem pending_plan_consumed_once (s : PlanState) (p : String)
    (h : (executePlan s).2 = some p) :
    hasPendingPlan (planStart s) = false
    ∧ (executePlan s).1 = ⟨none, none⟩
    ∧ hasPendingPlan (runEffectOnPlanState (executePlan s).1) = false
    ∧ (executePlan (runEffectOnPlanState (executePlan s).1)).2 = none
    ∧ (∀ s' : PlanState, hasPendingPlan s' = false → executePlan s' = (s', none)) := by
  refine ⟨rfl, ?_, ?_, ?_, ?_⟩
  · rcases s with ⟨pp, pt⟩
    cases pp <;> cases pt <;> simp_all [executePlan, clearPlan]
    split at h <;> simp_all
  · rcases s with ⟨pp, pt⟩
    cases pp <;> cases pt <;> simp_all [executePlan, clearPlan, hasPendingPlan,
      runEffectOnPlanState]
    split at h <;> split <;> simp_all [clearPlan, hasPendingPlan]
  · rcases s with ⟨pp, pt⟩
    cases pp <;> cases pt <;> simp_all [executePlan, clearPlan, runEffectOnPlanState]
    split at h <;> simp_all [executePlan, clearPlan]
  · intro s' hs'
    rcases s' with ⟨pp, pt⟩
    cases pp <;> simp_all [executePlan, hasPendingPlan]

/-- Witness for C7 at a concrete stored plan. -/
theorem pending_plan_consumed_once_witness :
    (executePlan ⟨some "PLAN", some "TASK"⟩).1 = ⟨none, none⟩
    ∧ hasPendingPlan (planStart ⟨some "PLAN", some "TASK"⟩) = false := by
  have h := pending_plan_consumed_once ⟨some "PLAN", some "TASK"⟩
    (executionPrompt "TASK" "PLAN") rfl
  exact ⟨h.2.1, h.1⟩

/-! ## Planning-mode read-only guard (`part_004` lines 1663-1678;
`src/src/tools.ts` lines 1347-1355)

```js
export const READ_ONLY_TOOL_NAMES = ['read_file', 'read_file_with_lines',
  'list_directory', 'find_files', 'search_files', 'get_file_info',
  'get_current_directory'];
...
if (!READ_ONLY_TOOL_NAMES.includes(functionName)) {
    ... content: 'Error: This tool is not available in planning mode. Only read-only tools are allowed.'
    continue;   // never reaches JSON parse / validation / execution
}
```
-/

def READ_ONLY_TOOL_NAMES : List String :=
  ["read_file", "read_file_with_lines", "list_directory", "find_files",
   "search_files", "get_file_info", "get_current_directory"]

/-- Outcome of processing one tool call inside `Agent.plan`: the recorded
tool-result content and whether the underlying tool function ran. -/
structure PlanCallResult where
  content : String
  invoked : Bool
  deriving DecidableEq, Repr

/-- Validation outcome of `validateToolArgs`. -/
inductive ValidationResult
  | valid
  | invalid (err : String)
  deriving DecidableEq, Repr

/-- One tool call processed by `Agent.plan`'s loop: the read-only guard
first, then JSON parsing, validation, the `ask_user` special case, lookup
in `availableTools` and execution with errors caught into error strings. -/
def planProcessToolCall (functionName : String) (jsonOk : Bool)
    (validation : ValidationResult) (askUserResponse : String)
    (tool : Option (Unit → Except String String)) : PlanCallResult :=
  if !(READ_ONLY_TOOL_NAMES.contains functionName) then
    ⟨"Error: This tool is not available in planning mode. Only read-only tools are allowed.",
     false⟩
  else if !jsonOk then ⟨"Error: Invalid JSON arguments", false⟩
  else
    match validation with
    | .invalid err => ⟨err, false⟩
    | .valid =>
      if functionName == "ask_user" then ⟨askUserResponse, false⟩
      else
        match tool with
        | some f =>
          match f () with
          | .ok out => ⟨out, true⟩
          | .error e => ⟨"Error: " ++ e, true⟩
        | none => ⟨"Error: Tool " ++ functionName ++ " not found", false⟩

/-- C8: during a planning run every tool call whose name is outside the
read-only set is rejected without executing the tool function, with the
fixed planning-mode error string as its recorded result — whatever the
arguments, validation outcome or tool behaviour; and the read-only set is
exactly the seven listed names. -/
theorem planning_read_only_guard (functionName : String) (jsonOk : Bool)
    (validation : ValidationResult) (askUserResponse : String)
    (tool : Option (Unit → Except String String))
    (h : READ_ONLY_TOOL_NAMES.contains functionName = false) :
    planProcessToolCall functionName jsonOk validation askUserResponse tool =
      ⟨"Error: This tool is not available in planning mode. Only read-only tools are allowed.",
       false⟩
    ∧ READ_ONLY_TOOL_NAMES =
      ["read_file", "read_file_with_lines", "list_directory", "find_files",
       "search_files", "get_file_info", "get_current_directory"] := by
  refine ⟨?_, rfl⟩
  unfold planProcessToolCall
  rw [h]
  rfl

/-- Witness for C8: the model attempting `write_file` during planning. -/
theorem planning_read_only_guard_witness :
    planProcessToolCall "write_file" true .valid "" (some fun _ => .ok "written") =
      ⟨"Error: This tool is not available in planning mode. Only read-only tools are allowed.",
       false⟩ :=
  (planning_read_only_guard "write_file" true .valid ""
    (some fun _ => .ok "written") (by decide)).1

/-! ## Question heuristic and the no-tool-call turn tail
(`Agent.run`, part_004 lines 1424-1463)

```js
const trimmedContent = (fullContent || '').trim();
const lastSentence = trimmedContent.slice(-200);
const appearsToAskQuestion =
    lastSentence.includes('?') ||
    /would you like/i.test(lastSentence) || /do you want/i.test(lastSentence) ||
    /should i/i.test(lastSentence) || /shall i/i.test(lastSentence) ||
    /let me know/i.test(lastSentence) || /please (confirm|respond|reply)/i.test(lastSentence);

if (appearsToAskQuestion) {
    const userResponse = await this.askUserSimple();
    if (userResponse.trim()) { ...push user message...; continue; }
    else { this.status.setState('complete'); break; }
}
messages.push({ role: 'system', content: 'You did not call a tool. ...' });
continue;
```
-/

/-- `Agent.run`'s change-intent heuristic over the assistant's plain text. -/
def appearsToAskQuestion (fullContent : String) : Bool :=
  let trimmedContent := jsTrim fullContent
  let lastSentence := jsSliceLast 200 trimmedContent
  jsIncludes lastSentence "?"
  || jsIncludes (jsToLower lastSentence) "would you like"
  || jsIncludes (jsToLower lastSentence) "do you want"
  || jsIncludes (jsToLower lastSentence) "should i"
  || jsIncludes (jsToLower lastSentence) "shall i"
  || jsIncludes (jsToLower lastSentence) "let me know"
  || jsIncludes (jsToLower lastSentence) "please confirm"
  || jsIncludes (jsToLower lastSentence) "please respond"
  || jsIncludes (jsToLower lastSentence) "please reply"

/-- The system reminder appended when the heuristic does not match. -/
def questionReminder : String :=
  "You did not call a tool. If you are trying to perform an action, call the appropriate tool. If you are done, call task_complete."

/-- How a text-only (no tool calls) turn ends: `promptedContinue r` — the
human was prompted and reply `r` is appended as a new user message, the
loop continues; `promptedEnd` — the human was prompted, the reply trimmed
to empty and the run completes; `nudged m` — no prompt, the system
reminder `m` is appended and the loop continues. -/
inductive NoToolTurnOutcome
  | promptedContinue (reply : String)
  | promptedEnd
  | nudged (reminder : String)
  deriving DecidableEq, Repr

/-- The tail of a text-only turn of `Agent.run` (the prompt for
`userReply` happens only in the matched branch). -/
def noToolCallsStep (fullContent userReply : String) : NoToolTurnOutcome :=
  if appearsToAskQuestion fullContent then
    if jsTrim userReply ≠ "" then .promptedContinue userReply
    else .promptedEnd
  else .nudged questionReminder

/-- The heuristic exactly as the claim words it, for comparison with the
code's `appearsToAskQuestion`: a trailing question mark on the trimmed
text, or (case-insensitively) one of the listed phrases. -/
def claimedQuestionHeuristic (fullContent : String) : Bool :=
  let t := jsTrim fullContent
  (t.data.getLast? == some '?')
  || jsIncludes (jsToLower t) "would you like"
  || jsIncludes (jsToLower t) "do you want"
  || jsIncludes (jsToLower t) "should i"
  || jsIncludes (jsToLower t) "shall i"
  || jsIncludes (jsToLower t) "let me know"
  || jsIncludes (jsToLower t) "please confirm"
  || jsIncludes (jsToLower t) "please respond"
  || jsIncludes (jsToLower t) "please reply"

/-- C9 counterexample: on "Is it done? Yes." the code prompts (a question
mark occurs inside the last 200 characters) although the text has no
trailing question mark and no listed phrase, so the claim's "exactly when
trailing question mark or listed phrase" is false; and on a matched text a
non-empty but whitespace-only reply ends the run instead of being appended
and continuing, falsifying the claim's "non-empty reply ⇒ appended and
loop continues". -/
theorem question_heuristic_counterexample :
    appearsToAskQuestion "Is it done? Yes." = true
    ∧ claimedQuestionHeuristic "Is it done? Yes." = false
    ∧ noToolCallsStep "Is it done? Yes." "" = .promptedEnd
    ∧ noToolCallsStep "Would you like tea" " " = .promptedEnd := by decide

/-- C9 amended: the human is prompted exactly when the code's heuristic
matches — a question mark anywhere in the last 200 characters of the
trimmed text, or (case-insensitively) one of the phrases "would you
like", "do you want", "should i", "shall i", "let me know", "please
confirm/respond/reply" occurring there; when matched and the reply is
non-whitespace it is appended as a new user message and the loop
continues, when matched and the reply trims to empty the run ends, and
when not matched the system reminder (call a tool or signal completion)
is appended and the loop continues without terminating. -/
theorem question_heuristic_turn (fullContent userReply : String) :
    (appearsToAskQuestion fullContent = true →
      (jsTrim userReply ≠ "" →
        noToolCallsStep fullContent userReply = .promptedContinue userReply)
      ∧ (jsTrim userReply = "" →
        noToolCallsStep fullContent userReply = .promptedEnd))
    ∧ (appearsToAskQuestion fullContent = false →
      noToolCallsStep fullContent userReply = .nudged questionReminder)
    ∧ appearsToAskQuestion fullContent =
      (jsIncludes (jsSliceLast 200 (jsTrim fullContent)) "?"
       || jsIncludes (jsToLower (jsSliceLast 200 (jsTrim fullContent))) "would you like"
       || jsIncludes (jsToLower (jsSliceLast 200 (jsTrim fullContent))) "do you want"
       || jsIncludes (jsToLower (jsSliceLast 200 (jsTrim fullContent))) "should i"
       || jsIncludes (jsToLower (jsSliceLast 200 (jsTrim fullContent))) "shall i"
       || jsIncludes (jsToLower (jsSliceLast 200 (jsTrim fullContent))) "let me know"
       || jsIncludes (jsToLower (jsSliceLast 200 (jsTrim fullContent))) "please confirm"
       || jsIncludes (jsToLower (jsSliceLast 200 (jsTrim fullContent))) "please respond"
       || jsIncludes (jsToLower (jsSliceLast 200 (jsTrim fullContent))) "please reply") := by
  refine ⟨fun h => ⟨fun h2 => ?_, fun h2 => ?_⟩, fun h => ?_, rfl⟩
  · simp [noToolCallsStep, h, h2]
  · simp [noToolCallsStep, h, h2]
  · simp [noToolCallsStep, h]

end OpenrouterAgent
